import Mathlib

/-!
Verification development for the `cargo-minify` sources
(`src/main.rs`, `src/symbol_collect_visitor.rs`).

The Rust code is embedded shallowly: each Rust function becomes a Lean
definition over `List Char` / `String` / `List Nat`, with the fallible
parts (out-of-bounds indexing, unwraps, potentially diverging loops)
made explicit through an error monad and, where a loop can fail to make
progress, a fuel parameter.  Character classification predicates model
the ASCII fragment of the corresponding Unicode predicates used by Rust
(`char::is_alphanumeric`, `char::is_whitespace`); all inputs of interest
to the claims are ASCII.
-/

namespace CargoMinify

/-- `alnum` from `remove_extra_space` (src/main.rs lines 125-127):
`c.is_alphanumeric() || c == '_'` (ASCII fragment). -/
def alnum (c : Char) : Bool := c.isAlphanum || c = '_'

/-- Whitespace test used by the compactor's skip loop (ASCII fragment of
`char::is_whitespace`). -/
def isWs (c : Char) : Bool := c.isWhitespace

/-- Runtime failures of the embedded compactor: `oob` models a Rust panic
from indexing `cs[i]` past the end of the input; `fuel` marks that the
outer loop exceeded its iteration budget (it makes no input progress and
would loop forever in Rust). -/
inductive CErr where
  | oob
  | fuel
deriving DecidableEq, Repr

/-- The raw-string branch of `remove_extra_space` (src/main.rs lines
109-115): `while !result.ends_with(&['"', '#']) { result.push(cs[i]); i += 1; }`.
Returns the extended `result` and remaining input; errs with `oob` when
the input runs out before `result` ends in `"#`. -/
def copyRaw : List Char → List Char → Except CErr (List Char × List Char)
  | result, rest =>
    if ['"', '#'].isSuffixOf result then .ok (result, rest)
    else
      match rest with
      | [] => .error .oob
      | c :: rest' => copyRaw (result ++ [c]) rest'

/-- The line-comment branch of `remove_extra_space` (src/main.rs lines
117-123): `while !result.ends_with(&['\n']) { result.push(cs[i]); i += 1; }`. -/
def copyComment : List Char → List Char → Except CErr (List Char × List Char)
  | result, rest =>
    if ['\n'].isSuffixOf result then .ok (result, rest)
    else
      match rest with
      | [] => .error .oob
      | c :: rest' => copyComment (result ++ [c]) rest'

/-- The token-tail loop of `remove_extra_space` (src/main.rs lines
139-142): `while alnum(cs[i]) { result.push(cs[i]); i += 1; }`.
Note the Rust loop reads `cs[i]` before any bounds test, so running out
of input here is a panic (`oob`), faithfully modelled. -/
def copyAlnumRun : List Char → List Char → Except CErr (List Char × List Char)
  | _, [] => .error .oob
  | result, c :: rest' =>
    if alnum c then copyAlnumRun (result ++ [c]) rest'
    else .ok (result, c :: rest')

/-- One space-insertion decision of `remove_extra_space` (src/main.rs
lines 129-135), exactly as the code sequences it:
first `if result.ends_with(&['.', '0']) && cs[i] == '.'`, else
`if let Some(last) = result.last()` with `alnum(*last) && alnum(cs[i])`. -/
def spacedResult (result : List Char) (c : Char) : List Char :=
  if ['.', '0'].isSuffixOf result && c = '.' then result ++ [' ']
  else
    match result.getLast? with
    | some last => if alnum last && alnum c then result ++ [' '] else result
    | none => result

/-- The outer loop of `remove_extra_space` (src/main.rs lines 100-143).
The loop index `i` is represented by the remaining input `rest`;
`result` is the output accumulator.  Fuel bounds the number of outer
iterations: iterations that consume no input repeat for ever in Rust. -/
def removeLoop : Nat → List Char → List Char → Except CErr (List Char)
  | 0, _, _ => .error .fuel
  | n + 1, result, rest =>
    let rest := rest.dropWhile isWs
    match rest with
    | [] => .ok result
    | c :: rest' =>
      match rest with
      | 'r' :: '#' :: '"' :: _ =>
        match copyRaw result rest with
        | .error e => .error e
        | .ok (result, rest) => removeLoop n result rest
      | '/' :: '/' :: _ =>
        match copyComment result rest with
        | .error e => .error e
        | .ok (result, rest) => removeLoop n result rest
      | _ =>
        match copyAlnumRun (spacedResult result c ++ [c]) rest' with
        | .error e => .error e
        | .ok (result, rest) => removeLoop n result rest

/-- `remove_extra_space` (src/main.rs lines 95-144).  A terminating Rust
execution performs at most `|source| + 1` outer iterations (every
non-final iteration consumes at least one input character), so this fuel
is exact: `.error .fuel` arises only on inputs where the Rust loop makes
no progress and diverges. -/
def remove_extra_space (source : String) : Except CErr String :=
  (removeLoop (source.length + 1) [] source.data).map fun out => ⟨out⟩

/-- The space-insertion rule of the code, packaged as a single boolean
predicate: insert a space exactly when the emitted text ends in the two
characters `.` `0` and the next character is `.`, or the emitted text
ends in an alphanumeric/underscore character and the next character is
one as well. -/
def insertSpace (result : List Char) (c : Char) : Bool :=
  (['.', '0'].isSuffixOf result && c = '.') ||
    (match result.getLast? with
     | some last => alnum last && alnum c
     | none => false)

/-- `spacedResult` re-expressed through the `insertSpace` predicate. -/
def spacedResultAmended (result : List Char) (c : Char) : List Char :=
  if insertSpace result c then result ++ [' '] else result

/-- The outer compactor loop with the insertion decision phrased as the
single predicate `insertSpace`; otherwise identical to `removeLoop`. -/
def removeLoopAmended : Nat → List Char → List Char → Except CErr (List Char)
  | 0, _, _ => .error .fuel
  | n + 1, result, rest =>
    let rest := rest.dropWhile isWs
    match rest with
    | [] => .ok result
    | c :: rest' =>
      match rest with
      | 'r' :: '#' :: '"' :: _ =>
        match copyRaw result rest with
        | .error e => .error e
        | .ok (result, rest) => removeLoopAmended n result rest
      | '/' :: '/' :: _ =>
        match copyComment result rest with
        | .error e => .error e
        | .ok (result, rest) => removeLoopAmended n result rest
      | _ =>
        match copyAlnumRun (spacedResultAmended result c ++ [c]) rest' with
        | .error e => .error e
        | .ok (result, rest) => removeLoopAmended n result rest

/-- Top-level compactor with the `insertSpace` characterisation. -/
def remove_extra_space_amended (source : String) : Except CErr String :=
  (removeLoopAmended (source.length + 1) [] source.data).map fun out => ⟨out⟩

/-- The space-insertion rule as the specification words it: insert a
space when the emitted token ends in an alphanumeric/underscore character
and the next begins with one, or the emitted text ends in a trailing `.`
that follows a `0` (i.e. ends in the two characters `0` `.`) and the
next character is `.`. -/
def insertSpaceClaim (result : List Char) (c : Char) : Bool :=
  (['0', '.'].isSuffixOf result && c = '.') ||
    (match result.getLast? with
     | some last => alnum last && alnum c
     | none => false)

/-- The compactor loop as the specification's insertion rule describes
it (differs from `removeLoop` only in the `0`/`.` order of rule (b)). -/
def removeLoopClaim : Nat → List Char → List Char → Except CErr (List Char)
  | 0, _, _ => .error .fuel
  | n + 1, result, rest =>
    let rest := rest.dropWhile isWs
    match rest with
    | [] => .ok result
    | c :: rest' =>
      match rest with
      | 'r' :: '#' :: '"' :: _ =>
        match copyRaw result rest with
        | .error e => .error e
        | .ok (result, rest) => removeLoopClaim n result rest
      | '/' :: '/' :: _ =>
        match copyComment result rest with
        | .error e => .error e
        | .ok (result, rest) => removeLoopClaim n result rest
      | _ =>
        match copyAlnumRun
            ((if insertSpaceClaim result c then result ++ [' '] else result) ++ [c]) rest' with
        | .error e => .error e
        | .ok (result, rest) => removeLoopClaim n result rest

/-- Top-level compactor following the specification's insertion rule. -/
def remove_extra_space_claim (source : String) : Except CErr String :=
  (removeLoopClaim (source.length + 1) [] source.data).map fun out => ⟨out⟩

/-! ## Identifier occurrences -/

/-- An identifier occurrence: spelling plus source position (models
`proc_macro2::Ident`, whose span start has already been translated to a
text offset by the `LineIndex` collaborator). -/
structure RIdent where
  name : String
  pos : Nat
deriving DecidableEq, Repr

/-! ## SymbolNameGenerator (src/main.rs lines 16-92) -/

/-- `FIRST_CHARS` (src/main.rs lines 16-20). -/
def FIRST_CHARS : List Char :=
  "abcdefghijklmnopqrstuvwxyzABCDEFGHIJKLMNOPQRSTUVWXYZ".data

/-- `CHARS` (src/main.rs lines 22-26). -/
def CHARS : List Char :=
  "abcdefghijklmnopqrstuvwxyzABCDEFGHIJKLMNOPQRSTUVWXYZ_0123456789".data

/-- The reserved-word list of `SymbolNameGenerator::new`
(src/main.rs lines 44-52). -/
def RESERVED_WORDS : List String :=
  ["as", "impl", "fn", "do", "while", "if", "else", "match", "use", "type",
   "enum", "struct", "pub", "crate", "super", "self", "Self", "static", "mod",
   "let", "const", "mut"]

/-- `SymbolNameGenerator` (src/main.rs lines 28-32).  The two Rust
`HashSet<String>` fields are modelled as lists used only through
membership. -/
structure SymbolNameGenerator where
  used_symbol : List String
  current : List Nat
  reserved_words : List String

/-- `SymbolNameGenerator::new` (src/main.rs lines 35-54): the used-name
set is the spellings of both identifier lists chained together. -/
def SymbolNameGenerator.new (used_idents other_idents : List RIdent) :
    SymbolNameGenerator where
  used_symbol := (used_idents ++ other_idents).map fun i => i.name
  current := []
  reserved_words := RESERVED_WORDS

/-- The carry loop of `gen_next_symbol` (src/main.rs lines 61-80) on the
little-endian digit vector `current`: increment position `i`; the last
position (`is_first_digit`, the leading character of the rendered name)
has radix `FIRST_CHARS.len()`, all others `CHARS.len()`; on overflow
zero the digit and continue, appending a fresh leading digit when the
last position overflows. -/
def carry : List Nat → List Nat
  | [] => []
  | [d] => if d + 1 = FIRST_CHARS.length then [0, 0] else [d + 1]
  | d :: rest => if d + 1 = CHARS.length then 0 :: carry rest else (d + 1) :: rest

/-- The rendering of `current` (src/main.rs line 81):
`current.iter().rev().map(|&c| CHARS[c]).collect()`.  Indexing is
modelled with a default that is never reached on in-range digits. -/
def render (current : List Nat) : String :=
  (current.reverse.map fun c => CHARS.getD c ' ').asString

/-- `SymbolNameGenerator::gen_next_symbol` (src/main.rs lines 56-82). -/
def SymbolNameGenerator.gen_next_symbol (g : SymbolNameGenerator) :
    String × SymbolNameGenerator :=
  match g.current with
  | [] => ((FIRST_CHARS.getD 0 ' ').toString, { g with current := [0] })
  | d :: rest =>
    let cur := carry (d :: rest)
    (render cur, { g with current := cur })

/-- `SymbolNameGenerator::gen_next_unused_symbol` (src/main.rs lines
84-91): advance the counter until the candidate is in neither the used
nor the reserved set.  The Rust loop is unbounded; fuel makes it total,
with `none` meaning the budget ran out. -/
def SymbolNameGenerator.gen_next_unused_symbol :
    Nat → SymbolNameGenerator → Option (String × SymbolNameGenerator)
  | 0, _ => none
  | fuel + 1, g =>
    let (symbol, g') := g.gen_next_symbol
    if symbol ∉ g'.used_symbol ∧ symbol ∉ g'.reserved_words then some (symbol, g')
    else SymbolNameGenerator.gen_next_unused_symbol fuel g'

/-- The raw candidate stream: `n` successive `gen_next_symbol` results. -/
def candidateList : Nat → SymbolNameGenerator → List String
  | 0, _ => []
  | n + 1, g =>
    let (s, g') := g.gen_next_symbol
    s :: candidateList n g'

/-- A generator with no used names, for observing the candidate stream. -/
def freshGenerator : SymbolNameGenerator := SymbolNameGenerator.new [] []

/-- `n` successive `gen_next_unused_symbol` results (each call given
`fuel`); `none` if any call exhausts its fuel. -/
def genRun (fuel : Nat) : Nat → SymbolNameGenerator → Option (List String)
  | 0, _ => some []
  | n + 1, g =>
    match g.gen_next_unused_symbol fuel with
    | none => none
    | some (s, g') => (genRun fuel n g').map fun outs => s :: outs

/-- Digit-vector well-formedness: nonempty, every digit below the 63
radix of `CHARS`, and the last (leading) digit below the 52 radix of
`FIRST_CHARS`. -/
def validDigits : List Nat → Bool
  | [] => false
  | [d] => decide (d < 52)
  | d :: rest => decide (d < 63) && validDigits rest

/-- Generator states reachable from `new`: the digit vector is empty
(before the first call) or well-formed. -/
def StateOK (g : SymbolNameGenerator) : Prop :=
  g.current = [] ∨ validDigits g.current = true

/-- Enumeration index of a digit vector: `val` is strictly monotone
along the candidate stream and injective on well-formed vectors. -/
def val : List Nat → Nat
  | [] => 0
  | [d] => d
  | d :: rest => d + 63 * val rest + 52

/-! ## Rename coordinator (`minify_file_with_idents`, src/main.rs 146-203) -/

/-- A text edit (`Indel` of the rust-analyzer `TextEdit`): delete the
range `[start, stop)` of the text and insert `insert` there. -/
structure Indel where
  start : Nat
  stop : Nat
  insert : String
deriving DecidableEq, Repr

/-- Application of one indel to a character list. -/
def applyIndel (text : List Char) (e : Indel) : List Char :=
  text.take e.start ++ e.insert.data ++ text.drop e.stop

/-- Insertion sort of indels by descending start offset. -/
def insertDesc (e : Indel) : List Indel → List Indel
  | [] => [e]
  | x :: xs => if x.start ≤ e.start then e :: x :: xs else x :: insertDesc e xs

/-- Sort indels by descending start offset. -/
def sortDesc : List Indel → List Indel
  | [] => []
  | e :: es => insertDesc e (sortDesc es)

/-- `TextEdit::apply`, the SourceBuffer collaborator of spec section 6:
apply a disjoint set of indels, all addressed at the coordinates of the
given text, in one atomic step (descending start order keeps the
coordinates of the not-yet-applied edits stable). -/
def applyIndels (text : String) (edits : List Indel) : String :=
  ⟨(sortDesc edits).foldl applyIndel text.data⟩

/-- The external Renamer (spec section 6, rust-analyzer's
`analysis.rename`): given the analysis snapshot's text, a position and
the new spelling, it returns the complete edit set for every occurrence
sharing that binding, or fails. -/
abbrev Renamer := String → Nat → String → Except Unit (List Indel)

/-- Coordinator failures: `renamerFailed` models the `?` propagation of
`analysis.rename(...)?`, `genFuel` an exhausted fuel budget of the
embedded unused-name loop (the Rust loop is unbounded). -/
inductive MErr where
  | renamerFailed
  | genFuel
deriving DecidableEq, Repr

/-- Loop state of `minify_file_with_idents`: the generator, the pending
candidate `next_symbol` and the edit `builder`, plus two observation
traces — the argument triple of every issued rename request (analysis
text, position, new spelling) and every applied rename (old spelling,
new spelling). -/
structure LoopState where
  gen : SymbolNameGenerator
  next_symbol : String
  builder : List Indel
  calls : List (String × Nat × String)
  renames : List (String × String)

/-- The `for rename_ident in rename_idents` loop of
`minify_file_with_idents` (src/main.rs lines 163-191).  Every rename
request receives the pass-initial `file_text0`: the analysis snapshot is
taken before the loop and the builder's edits are applied only after
it. -/
def minifyGo (R : Renamer) (file_text0 : String) (fuel : Nat) :
    List RIdent → LoopState → Except MErr LoopState
  | [], st => .ok st
  | rename_ident :: rest, st =>
    if rename_ident.name = "main" then minifyGo R file_text0 fuel rest st
    else if rename_ident.name.length ≤ st.next_symbol.length then
      minifyGo R file_text0 fuel rest st
    else
      match R file_text0 rename_ident.pos st.next_symbol with
      | .error _ => .error .renamerFailed
      | .ok edits =>
        match SymbolNameGenerator.gen_next_unused_symbol fuel st.gen with
        | none => .error .genFuel
        | some (s, g) =>
          minifyGo R file_text0 fuel rest
            { gen := g
              next_symbol := s
              builder := st.builder ++ edits
              calls := st.calls ++ [(file_text0, rename_ident.pos, st.next_symbol)]
              renames := st.renames ++ [(rename_ident.name, st.next_symbol)] }

/-- One pass of the coordinator: build the generator from both ident
lists, draw the first candidate, and run the loop from an empty builder
and empty traces; returns the final loop state. -/
def minifyRun (R : Renamer) (file_text : String) (fuel : Nat)
    (rename_idents other_idents : List RIdent) : Except MErr LoopState :=
  match SymbolNameGenerator.gen_next_unused_symbol fuel
      (SymbolNameGenerator.new rename_idents other_idents) with
  | none => .error .genFuel
  | some (s0, g1) =>
    minifyGo R file_text fuel rename_idents
      { gen := g1, next_symbol := s0, builder := [], calls := [], renames := [] }

/-- `minify_file_with_idents` (src/main.rs lines 146-203): run the loop
and then apply the accumulated edit builder to the file text in one
batch (`builder.finish().apply(&mut file_text)`). -/
def minify_file_with_idents (R : Renamer) (file_text : String) (fuel : Nat)
    (rename_idents other_idents : List RIdent) : Except MErr String :=
  (minifyRun R file_text fuel rename_idents other_idents).map
    fun st => applyIndels file_text st.builder

/-- The coordinator loop as the specification describes it, for
comparison with `minifyGo`: each successful rename's edits are applied
to the working buffer immediately, before the next rename is attempted,
so each rename request sees the updated buffer. -/
def minifyGoIncr (R : Renamer) (fuel : Nat) :
    List RIdent → String → LoopState → Except MErr (String × LoopState)
  | [], text, st => .ok (text, st)
  | rename_ident :: rest, text, st =>
    if rename_ident.name = "main" then minifyGoIncr R fuel rest text st
    else if rename_ident.name.length ≤ st.next_symbol.length then
      minifyGoIncr R fuel rest text st
    else
      match R text rename_ident.pos st.next_symbol with
      | .error _ => .error .renamerFailed
      | .ok edits =>
        match SymbolNameGenerator.gen_next_unused_symbol fuel st.gen with
        | none => .error .genFuel
        | some (s, g) =>
          minifyGoIncr R fuel rest (applyIndels text edits)
            { gen := g
              next_symbol := s
              builder := st.builder ++ edits
              calls := st.calls ++ [(text, rename_ident.pos, st.next_symbol)]
              renames := st.renames ++ [(rename_ident.name, st.next_symbol)] }

/-- One pass of the specification-described incremental coordinator. -/
def minifyRunIncr (R : Renamer) (file_text : String) (fuel : Nat)
    (rename_idents other_idents : List RIdent) : Except MErr (String × LoopState) :=
  match SymbolNameGenerator.gen_next_unused_symbol fuel
      (SymbolNameGenerator.new rename_idents other_idents) with
  | none => .error .genFuel
  | some (s0, g1) =>
    minifyGoIncr R fuel rename_idents file_text
      { gen := g1, next_symbol := s0, builder := [], calls := [], renames := [] }

/-- A concrete renamer for witnesses: rename the two-character
identifier at the given position. -/
def exampleRenamer : Renamer := fun _ pos newName => .ok [⟨pos, pos + 2, newName⟩]

/-- Two concrete identifier occurrences in the text `ab cd`. -/
def exampleIdents : List RIdent := [⟨"ab", 0⟩, ⟨"cd", 3⟩]

/-! ## SymbolCollectVisitor (src/symbol_collect_visitor.rs)

The embedding covers the syntax-tree fragment the visitor's
impl-block handling operates on: the pattern kinds of `pat_to_ident`,
typed/receiver function arguments, and the item kinds
`ItemFn`, `ItemStruct` (with named fields), `ItemImpl` (with its
methods), `ItemConst`, `ItemStatic`, `ItemMod`, plus `Local` statements
appearing in bodies.  Item bodies are item lists, so impl blocks nest
inside functions and methods and the trait-impl stack depth is
exercised. -/

/-- The pattern fragment of `pat_to_ident`
(src/symbol_collect_visitor.rs lines 31-49). -/
inductive MPat where
  | ident (i : RIdent)
  | tupleStruct (pats : List MPat)
  | ref (p : MPat)
  | typed (p : MPat)
  | tuple (pats : List MPat)
  | wild

/-- `syn::FnArg`: a typed argument pattern or the `self` receiver. -/
inductive MFnArg where
  | typed (p : MPat)
  | receiver

mutual
/-- Item fragment visited by `SymbolCollectVisitor`. -/
inductive MItem where
  | itemFn (name : RIdent) (inputs : List MFnArg) (body : List MItem)
  | itemStruct (name : RIdent) (fields : List RIdent)
  | itemImpl (isTraitImpl : Bool) (items : List MImplItem)
  | itemConst (name : RIdent)
  | itemStatic (name : RIdent)
  | itemMod (name : RIdent) (items : List MItem)
  | localLet (pat : MPat)

/-- An item of an `impl` block (`syn::ImplItemMethod`). -/
inductive MImplItem where
  | method (name : RIdent) (inputs : List MFnArg) (body : List MItem)
end

mutual
/-- `SymbolCollectVisitor::pat_to_ident`
(src/symbol_collect_visitor.rs lines 31-49). -/
def pat_to_ident : MPat → List RIdent
  | .ident i => [i]
  | .tupleStruct ps => pats_to_ident ps
  | .ref p => pat_to_ident p
  | .typed p => pat_to_ident p
  | .tuple ps => pats_to_ident ps
  | .wild => []

/-- `pat_to_ident` mapped over a pattern list (the `flat_map` calls). -/
def pats_to_ident : List MPat → List RIdent
  | [] => []
  | p :: ps => pat_to_ident p ++ pats_to_ident ps
end

/-- The binding idents of an argument list: each `FnArg::Typed` argument
contributes its pattern's idents (the `sig.inputs.iter().for_each`
blocks of the visitor). -/
def argIdents : List MFnArg → List RIdent
  | [] => []
  | .typed p :: rest => pat_to_ident p ++ argIdents rest
  | .receiver :: rest => argIdents rest

/-- Visitor state (src/symbol_collect_visitor.rs lines 16-20): the two
occurrence categories and the trait-impl flag stack. -/
structure CollectSt where
  ident_var : List RIdent
  ident_others : List RIdent
  impl_for_trait_stack : List Bool
deriving DecidableEq, Repr

mutual
/-- The `VisitMut` dispatch of `SymbolCollectVisitor` on one item:
`visit_item_fn_mut` pushes the function name to `ident_others` and the
typed-argument patterns to `ident_var`, then walks the body;
`visit_item_struct_mut`/`visit_field_mut` push the struct name and the
field names to `ident_others`; `visit_item_impl_mut` pushes
`trait_.is_some()` on the stack, walks the impl items and pops;
`visit_item_const_mut`/`visit_item_static_mut` push to `ident_var`;
`visit_item_mod_mut` pushes the module name to `ident_others`;
`visit_local_mut` pushes the binding pattern's idents to `ident_var`. -/
def collectItem : CollectSt → MItem → CollectSt
  | st, .itemFn name inputs body =>
    collectItems
      { st with
        ident_others := st.ident_others ++ [name]
        ident_var := st.ident_var ++ argIdents inputs }
      body
  | st, .itemStruct name fields =>
    { st with ident_others := st.ident_others ++ [name] ++ fields }
  | st, .itemImpl isTraitImpl items =>
    let st1 :=
      { st with impl_for_trait_stack := st.impl_for_trait_stack ++ [isTraitImpl] }
    let st2 := collectImplItems st1 items
    { st2 with impl_for_trait_stack := st2.impl_for_trait_stack.dropLast }
  | st, .itemConst name => { st with ident_var := st.ident_var ++ [name] }
  | st, .itemStatic name => { st with ident_var := st.ident_var ++ [name] }
  | st, .itemMod name items =>
    collectItems { st with ident_others := st.ident_others ++ [name] } items
  | st, .localLet pat => { st with ident_var := st.ident_var ++ pat_to_ident pat }

/-- Left-to-right traversal of an item list (traversal order of the
visitor delegates). -/
def collectItems : CollectSt → List MItem → CollectSt
  | st, [] => st
  | st, i :: is => collectItems (collectItem st i) is

/-- `visit_impl_item_method_mut` (src/symbol_collect_visitor.rs lines
116-130): the method name is pushed to `ident_others` only when the
enclosing impl block implements no trait (`!*stack.last().unwrap()`);
the typed-argument patterns always go to `ident_var`; then the body is
walked.  The `none` stack case is unreachable — methods are only
visited inside an impl block (Rust unwraps). -/
def collectImplItem : CollectSt → MImplItem → CollectSt
  | st, .method name inputs body =>
    let st1 :=
      match st.impl_for_trait_stack.getLast? with
      | some true => st
      | some false => { st with ident_others := st.ident_others ++ [name] }
      | none => st
    collectItems { st1 with ident_var := st1.ident_var ++ argIdents inputs } body

/-- Left-to-right traversal of an impl block's items. -/
def collectImplItems : CollectSt → List MImplItem → CollectSt
  | st, [] => st
  | st, m :: ms => collectImplItems (collectImplItem st m) ms
end

/-- Run the visitor over a file (`SymbolCollectVisitor::new` then
`visit_file_mut`). -/
def collectFile (items : List MItem) : CollectSt :=
  collectItems ⟨[], [], []⟩ items

mutual
/-- Binding-category contribution of one item (state-free mirror of
`collectItem`). -/
def varOfItem : MItem → List RIdent
  | .itemFn _ inputs body => argIdents inputs ++ varOfItems body
  | .itemStruct _ _ => []
  | .itemImpl _ items => varOfImplItems items
  | .itemConst name => [name]
  | .itemStatic name => [name]
  | .itemMod _ items => varOfItems items
  | .localLet pat => pat_to_ident pat

/-- Binding-category contribution of an item list. -/
def varOfItems : List MItem → List RIdent
  | [] => []
  | i :: is => varOfItem i ++ varOfItems is

/-- Binding-category contribution of an impl-block item. -/
def varOfImplItem : MImplItem → List RIdent
  | .method _ inputs body => argIdents inputs ++ varOfItems body

/-- Binding-category contribution of an impl block's items. -/
def varOfImplItems : List MImplItem → List RIdent
  | [] => []
  | m :: ms => varOfImplItem m ++ varOfImplItems ms
end

mutual
/-- Declaration-category contribution of one item. -/
def othersOfItem : MItem → List RIdent
  | .itemFn name _ body => name :: othersOfItems body
  | .itemStruct name fields => name :: fields
  | .itemImpl isTraitImpl items => othersOfImplItems isTraitImpl items
  | .itemConst _ => []
  | .itemStatic _ => []
  | .itemMod name items => name :: othersOfItems items
  | .localLet _ => []

/-- Declaration-category contribution of an item list. -/
def othersOfItems : List MItem → List RIdent
  | [] => []
  | i :: is => othersOfItem i ++ othersOfItems is

/-- Declaration-category contribution of an impl-block item, given the
enclosing block's trait flag: a trait-impl method's name is excluded. -/
def othersOfImplItem (isTraitImpl : Bool) : MImplItem → List RIdent
  | .method name _ body =>
    (if isTraitImpl then [] else [name]) ++ othersOfItems body

/-- Declaration-category contribution of an impl block's items. -/
def othersOfImplItems (isTraitImpl : Bool) : List MImplItem → List RIdent
  | [] => []
  | m :: ms => othersOfImplItem isTraitImpl m ++ othersOfImplItems isTraitImpl ms
end

mutual
/-- The method-name occurrences declared inside trait-implementing impl
blocks of one item. -/
def traitMethodsOfItem : MItem → List RIdent
  | .itemFn _ _ body => traitMethodsOfItems body
  | .itemStruct _ _ => []
  | .itemImpl isTraitImpl items => traitMethodsOfImplItems isTraitImpl items
  | .itemConst _ => []
  | .itemStatic _ => []
  | .itemMod _ items => traitMethodsOfItems items
  | .localLet _ => []

/-- Trait-impl method names of an item list. -/
def traitMethodsOfItems : List MItem → List RIdent
  | [] => []
  | i :: is => traitMethodsOfItem i ++ traitMethodsOfItems is

/-- Trait-impl method names of an impl-block item under the given
flag. -/
def traitMethodsOfImplItem (isTraitImpl : Bool) : MImplItem → List RIdent
  | .method name _ body =>
    (if isTraitImpl then [name] else []) ++ traitMethodsOfItems body

/-- Trait-impl method names of an impl block's items. -/
def traitMethodsOfImplItems (isTraitImpl : Bool) : List MImplItem → List RIdent
  | [] => []
  | m :: ms =>
    traitMethodsOfImplItem isTraitImpl m ++ traitMethodsOfImplItems isTraitImpl ms
end

mutual
/-- Every identifier occurrence of one item. -/
def allIdentsOfItem : MItem → List RIdent
  | .itemFn name inputs body => name :: (argIdents inputs ++ allIdentsOfItems body)
  | .itemStruct name fields => name :: fields
  | .itemImpl _ items => allIdentsOfImplItems items
  | .itemConst name => [name]
  | .itemStatic name => [name]
  | .itemMod name items => name :: allIdentsOfItems items
  | .localLet pat => pat_to_ident pat

/-- Every identifier occurrence of an item list. -/
def allIdentsOfItems : List MItem → List RIdent
  | [] => []
  | i :: is => allIdentsOfItem i ++ allIdentsOfItems is

/-- Every identifier occurrence of an impl-block item. -/
def allIdentsOfImplItem : MImplItem → List RIdent
  | .method name inputs body => name :: (argIdents inputs ++ allIdentsOfItems body)

/-- Every identifier occurrence of an impl block's items. -/
def allIdentsOfImplItems : List MImplItem → List RIdent
  | [] => []
  | m :: ms => allIdentsOfImplItem m ++ allIdentsOfImplItems ms
end

/-- A concrete file: `impl SomeTrait for T { fn foo(x) { let y; } }`
followed by a free function `bar`. -/
def exampleFile : List MItem :=
  [.itemImpl true
      [.method ⟨"foo", 10⟩ [.receiver, .typed (.ident ⟨"x", 14⟩)]
        [.localLet (.ident ⟨"y", 20⟩)]],
   .itemFn ⟨"bar", 30⟩ [] []]

theorem spacedResult_eq_amended (result : List Char) (c : Char) :
    spacedResult result c = spacedResultAmended result c := by
  unfold spacedResult spacedResultAmended insertSpace
  cases h : result.getLast? with
  | none =>
    by_cases hb : (['.', '0'].isSuffixOf result && c = '.') = true <;>
      simp [h, hb]
  | some last =>
    by_cases hb : (['.', '0'].isSuffixOf result && c = '.') = true
    · simp [h, hb]
    · by_cases ha : (alnum last && alnum c) = true <;> simp [h, hb, ha]

theorem removeLoop_eq_amended :
    ∀ (n : Nat) (result rest : List Char),
      removeLoop n result rest = removeLoopAmended n result rest := by
  intro n
  induction n with
  | zero => intro result rest; rfl
  | succ n ih =>
    intro result rest
    simp only [removeLoop, removeLoopAmended, spacedResult_eq_amended, ih]

/-! ### Name-generator lemmas -/

theorem FIRST_CHARS_length : FIRST_CHARS.length = 52 := rfl

theorem CHARS_length : CHARS.length = 63 := rfl

theorem carry_ne_nil : ∀ s : List Nat, s ≠ [] → carry s ≠ [] := by
  intro s hs
  cases s with
  | nil => exact absurd rfl hs
  | cons d t =>
    cases t with
    | nil => simp only [carry]; split <;> simp
    | cons e t => simp only [carry]; split <;> simp

theorem val_cons_ne (d : Nat) (t : List Nat) (h : t ≠ []) :
    val (d :: t) = d + 63 * val t + 52 := by
  cases t with
  | nil => exact absurd rfl h
  | cons e t => rfl

theorem validDigits_carry : ∀ s, validDigits s = true → validDigits (carry s) = true := by
  intro s
  induction s with
  | nil => simp [validDigits]
  | cons d t ih =>
    cases t with
    | nil =>
      simp only [validDigits, decide_eq_true_eq, carry, FIRST_CHARS_length]
      intro hd
      split
      · simp [validDigits]
      · next hne => simp only [validDigits, decide_eq_true_eq]; omega
    | cons e t =>
      simp only [validDigits, Bool.and_eq_true, decide_eq_true_eq, carry, CHARS_length]
      rintro ⟨hd, hrest⟩
      split
      · next heq =>
        have hne : carry (e :: t) ≠ [] := carry_ne_nil _ (by simp)
        rcases hc : carry (e :: t) with _ | ⟨c, cs⟩
        · exact absurd hc hne
        · have hv := ih hrest
          rw [hc] at hv
          simp only [validDigits, Bool.and_eq_true, decide_eq_true_eq]
          exact ⟨by omega, hv⟩
      · next hne =>
        simp only [validDigits, Bool.and_eq_true, decide_eq_true_eq]
        exact ⟨by omega, hrest⟩

theorem val_carry : ∀ s, validDigits s = true → val (carry s) = val s + 1 := by
  intro s
  induction s with
  | nil => simp [validDigits]
  | cons d t ih =>
    cases t with
    | nil =>
      simp only [validDigits, decide_eq_true_eq]
      intro hd
      simp only [carry, FIRST_CHARS_length]
      split
      · next heq => simp only [val]; omega
      · simp only [val]
    | cons e t =>
      simp only [validDigits, Bool.and_eq_true, decide_eq_true_eq]
      rintro ⟨hd, hrest⟩
      simp only [carry, CHARS_length]
      split
      · next heq =>
        have hne : carry (e :: t) ≠ [] := carry_ne_nil _ (by simp)
        rw [val_cons_ne 0 _ hne, ih hrest, val_cons_ne d (e :: t) (by simp)]
        omega
      · next hne =>
        rw [val_cons_ne (d + 1) (e :: t) (by simp), val_cons_ne d (e :: t) (by simp)]
        omega

theorem validDigits_lt63 : ∀ s, validDigits s = true → ∀ d ∈ s, d < 63 := by
  intro s
  induction s with
  | nil => simp
  | cons a t ih =>
    cases t with
    | nil =>
      simp only [validDigits, decide_eq_true_eq, List.mem_singleton]
      intro h d hd
      subst hd; omega
    | cons e t =>
      simp only [validDigits, Bool.and_eq_true, decide_eq_true_eq]
      rintro ⟨h1, h2⟩ d hd
      rcases List.mem_cons.mp hd with h | h
      · subst h; omega
      · exact ih h2 d h

set_option maxHeartbeats 1000000 in
theorem chars_getD_inj :
    ∀ a < 63, ∀ b < 63, CHARS.getD a ' ' = CHARS.getD b ' ' → a = b := by decide

theorem map_getD_inj :
    ∀ s t : List Nat, (∀ d ∈ s, d < 63) → (∀ d ∈ t, d < 63) →
      s.map (fun c => CHARS.getD c ' ') = t.map (fun c => CHARS.getD c ' ') →
      s = t := by
  intro s
  induction s with
  | nil =>
    intro t _ _ h
    cases t with
    | nil => rfl
    | cons b t => simp at h
  | cons a s ih =>
    intro t hs ht h
    cases t with
    | nil => simp at h
    | cons b t =>
      simp only [List.map_cons, List.cons.injEq] at h
      have hab := chars_getD_inj a (hs a (by simp)) b (ht b (by simp)) h.1
      subst hab
      have := ih t (fun d hd => hs d (by simp [hd])) (fun d hd => ht d (by simp [hd])) h.2
      rw [this]

theorem render_inj :
    ∀ s t, validDigits s = true → validDigits t = true → render s = render t → s = t := by
  intro s t hs ht h
  have hdata : s.reverse.map (fun c => CHARS.getD c ' ') =
      t.reverse.map (fun c => CHARS.getD c ' ') := congrArg String.data h
  have hrev := map_getD_inj s.reverse t.reverse
    (fun d hd => validDigits_lt63 s hs d (List.mem_reverse.mp hd))
    (fun d hd => validDigits_lt63 t ht d (List.mem_reverse.mp hd)) hdata
  exact List.reverse_injective hrev

theorem gen_next_symbol_spec (g : SymbolNameGenerator) (hg : StateOK g) :
    (g.gen_next_symbol.2).used_symbol = g.used_symbol ∧
      (g.gen_next_symbol.2).reserved_words = g.reserved_words ∧
      validDigits (g.gen_next_symbol.2).current = true ∧
      g.gen_next_symbol.1 = render (g.gen_next_symbol.2).current ∧
      (validDigits g.current = true → val g.current < val (g.gen_next_symbol.2).current) := by
  cases hcur : g.current with
  | nil =>
    refine ⟨?_, ?_, ?_, ?_, ?_⟩ <;>
      simp only [SymbolNameGenerator.gen_next_symbol, hcur]
    · rfl
    · rfl
    · intro h
      simp [hcur, validDigits] at h
  | cons d t =>
    have hvd : validDigits (d :: t) = true := by
      rcases hg with h | h
      · rw [hcur] at h; exact absurd h (by simp)
      · rw [hcur] at h; exact h
    refine ⟨?_, ?_, ?_, ?_, ?_⟩ <;>
      simp only [SymbolNameGenerator.gen_next_symbol, hcur]
    · exact validDigits_carry _ hvd
    · intro h
      have := val_carry _ hvd
      omega

theorem gen_next_unused_spec :
    ∀ (fuel : Nat) (g : SymbolNameGenerator) (s : String) (g' : SymbolNameGenerator),
      StateOK g → SymbolNameGenerator.gen_next_unused_symbol fuel g = some (s, g') →
      g'.used_symbol = g.used_symbol ∧ g'.reserved_words = g.reserved_words ∧
        validDigits g'.current = true ∧ s = render g'.current ∧
        s ∉ g.used_symbol ∧ s ∉ g.reserved_words ∧
        (validDigits g.current = true → val g.current < val g'.current) := by
  intro fuel
  induction fuel with
  | zero =>
    intro g s g' _ h
    simp [SymbolNameGenerator.gen_next_unused_symbol] at h
  | succ fuel ih =>
    intro g s g' hg h
    have hspec := gen_next_symbol_spec g hg
    rcases hgen : g.gen_next_symbol with ⟨sym, g1⟩
    rw [hgen] at hspec
    simp only [SymbolNameGenerator.gen_next_unused_symbol, hgen] at h
    split at h
    · next hcond =>
      rcases h with ⟨rfl, rfl⟩
      obtain ⟨hu, hr, hv, hrend, hval⟩ := hspec
      exact ⟨hu, hr, hv, hrend, by rw [← hu]; exact hcond.1, by rw [← hr]; exact hcond.2, hval⟩
    · next hcond =>
      obtain ⟨hu, hr, hv, hrend, hval⟩ := hspec
      have hok1 : StateOK g1 := Or.inr hv
      obtain ⟨hu', hr', hv', hrend', hmem1, hmem2, hval'⟩ := ih g1 s g' hok1 h
      refine ⟨hu'.trans hu, hr'.trans hr, hv', hrend', ?_, ?_, ?_⟩
      · rw [← hu]; exact hmem1
      · rw [← hr]; exact hmem2
      · intro hvg
        exact lt_trans (hval hvg) (hval' hv)

theorem genRun_spec :
    ∀ (n fuel : Nat) (g : SymbolNameGenerator) (outs : List String),
      StateOK g → genRun fuel n g = some outs →
      outs.Pairwise (· ≠ ·) ∧
        ∀ s ∈ outs, s ∉ g.used_symbol ∧ s ∉ g.reserved_words ∧
          ∃ st, validDigits st = true ∧ s = render st ∧
            (validDigits g.current = true → val g.current < val st) := by
  intro n
  induction n with
  | zero =>
    intro fuel g outs _ h
    simp only [genRun, Option.some.injEq] at h
    subst h
    simp
  | succ n ih =>
    intro fuel g outs hg h
    simp only [genRun] at h
    rcases hu : SymbolNameGenerator.gen_next_unused_symbol fuel g with _ | ⟨s0, g1⟩
    · simp [hu] at h
    · rcases hr : genRun fuel n g1 with _ | outs'
      · simp [hu, hr] at h
      · simp only [hu, hr, Option.map_some', Option.some.injEq] at h
        subst h
        obtain ⟨hu1, hr1, hv1, hrend1, hm1, hm2, hval1⟩ :=
          gen_next_unused_spec fuel g s0 g1 hg hu
        have hok1 : StateOK g1 := Or.inr hv1
        obtain ⟨hpw, hall⟩ := ih fuel g1 outs' hok1 hr
        constructor
        · refine List.Pairwise.cons ?_ hpw
          intro s hs heq
          obtain ⟨_, _, st, hstv, hsrend, hstval⟩ := hall s hs
          have hlt : val g1.current < val st := hstval hv1
          have : g1.current = st := render_inj _ _ hv1 hstv (by rw [← hrend1, heq, hsrend])
          rw [this] at hlt
          exact lt_irrefl _ hlt
        · intro s hs
          rcases List.mem_cons.mp hs with h | h
          · subst h
            exact ⟨hm1, hm2, g1.current, hv1, hrend1, hval1⟩
          · obtain ⟨ha, hb, st, hstv, hsrend, hstval⟩ := hall s h
            refine ⟨by rw [← hu1]; exact ha, by rw [← hr1]; exact hb,
              st, hstv, hsrend, ?_⟩
            intro hvg
            exact lt_trans (hval1 hvg) (hstval hv1)

/-- C5 counterexample: the claim says the candidate sequence is the
bijective positional numeral sequence with other-position radix 62, so
at most 62 two-character candidates with leading character `a` could
ever occur.  The code's first 116 candidates already contain 63 of them
(`CHARS` holds 52 letters, the underscore and 10 digits — 63 symbols,
not 62). -/
theorem C5_counterexample :
    ((candidateList 116 freshGenerator).countP
        fun s => (s.data.length == 2) && (s.data.head? == some 'a')) = 63 ∧
      (63 : Nat) ≠ 62 := by
  exact ⟨by decide, by decide⟩

/-- C5 amended: the candidate sequence is the bijective positional
numeral sequence with first-position radix 52 and other-position radix
63: the first 52 candidates are the one-character spellings
`a, …, z, A, …, Z` in that order, the 53rd is `aa`, the following
candidates exhaust all 63 `CHARS` symbols in the trailing position
before the leading character advances to `b`. -/
theorem C5_candidate_sequence :
    candidateList 116 freshGenerator =
      FIRST_CHARS.map (fun c => c.toString) ++
        CHARS.map (fun c => String.mk ['a', c]) ++ ["ba"] := by decide

/-- C4: within a single pass, every spelling returned by
`gen_next_unused_symbol` is distinct from every previously returned one,
never a reserved word, and never a member of the used-name set built
from both identifier lists. -/
theorem C4_generated_names_fresh (used other : List RIdent) (fuel n : Nat)
    (outs : List String)
    (h : genRun fuel n (SymbolNameGenerator.new used other) = some outs) :
    outs.Pairwise (· ≠ ·) ∧
      ∀ s ∈ outs,
        s ∉ (SymbolNameGenerator.new used other).used_symbol ∧
          s ∉ (SymbolNameGenerator.new used other).reserved_words := by
  have hok : StateOK (SymbolNameGenerator.new used other) := Or.inl rfl
  have hspec := genRun_spec n fuel _ outs hok h
  exact ⟨hspec.1, fun s hs => ⟨(hspec.2 s hs).1, (hspec.2 s hs).2.1⟩⟩

/-- C4 witness: a concrete three-name run from a generator whose
used-name set is built from the identifiers `foo` and `bar`. -/
theorem C4_generated_names_fresh_witness :
    genRun 30 3 (SymbolNameGenerator.new [⟨"foo", 0⟩] [⟨"bar", 9⟩]) =
        some ["a", "b", "c"] ∧
      ((["a", "b", "c"] : List String).Pairwise (· ≠ ·) ∧
        ∀ s ∈ (["a", "b", "c"] : List String),
          s ∉ (SymbolNameGenerator.new [⟨"foo", 0⟩] [⟨"bar", 9⟩]).used_symbol ∧
            s ∉ (SymbolNameGenerator.new [⟨"foo", 0⟩] [⟨"bar", 9⟩]).reserved_words) :=
  ⟨rfl, C4_generated_names_fresh [⟨"foo", 0⟩] [⟨"bar", 9⟩] 30 3 ["a", "b", "c"] rfl⟩

/-! ### Rename-coordinator lemmas -/

theorem minifyGo_inv (R : Renamer) (file_text0 : String) (fuel : Nat) :
    ∀ (ids : List RIdent) (st st' : LoopState),
      minifyGo R file_text0 fuel ids st = .ok st' →
      (∀ p ∈ st'.renames,
          p ∈ st.renames ∨ (p.1 ≠ "main" ∧ p.2.length < p.1.length)) ∧
        ∀ c ∈ st'.calls, c ∈ st.calls ∨ c.1 = file_text0 := by
  intro ids
  induction ids with
  | nil =>
    intro st st' h
    simp only [minifyGo, Except.ok.injEq] at h
    subst h
    exact ⟨fun p hp => Or.inl hp, fun c hc => Or.inl hc⟩
  | cons i rest ih =>
    intro st st' h
    simp only [minifyGo] at h
    split at h
    · exact ih st st' h
    · split at h
      · exact ih st st' h
      · next hmain hlen =>
        rcases hR : R file_text0 i.pos st.next_symbol with _ | edits <;> rw [hR] at h
        · simp at h
        · rcases hg : SymbolNameGenerator.gen_next_unused_symbol fuel st.gen
            with _ | ⟨s, g⟩ <;> rw [hg] at h
          · simp at h
          · obtain ⟨hren, hcall⟩ := ih _ st' h
            constructor
            · intro p hp
              rcases hren p hp with hmem | hnew
              · rcases List.mem_append.mp hmem with hmem | hmem
                · exact Or.inl hmem
                · rcases List.mem_singleton.mp hmem with rfl
                  exact Or.inr ⟨hmain, Nat.lt_of_not_le hlen⟩
              · exact Or.inr hnew
            · intro c hc
              rcases hcall c hc with hmem | hnew
              · rcases List.mem_append.mp hmem with hmem | hmem
                · exact Or.inl hmem
                · rcases List.mem_singleton.mp hmem with rfl
                  exact Or.inr rfl
              · exact Or.inr hnew

/-- C2 counterexample: the claim says each successful rename's edits are
applied to the working buffer and made durable before the next rename is
attempted.  In the code the edits are collected in one `TextEdit`
builder and applied only after the loop, so the second rename request
still sees the pass-initial text `ab cd` even though the first rename
turned `ab` into `a`; the incremental coordinator the claim describes
would give the second request the updated buffer `a cd`. -/
theorem C2_counterexample :
    (minifyRun exampleRenamer "ab cd" 30 exampleIdents []).map
        (fun st => st.calls) =
      .ok [("ab cd", 0, "a"), ("ab cd", 3, "b")] ∧
      (minifyRunIncr exampleRenamer "ab cd" 30 exampleIdents []).map
          (fun p => p.2.calls) =
        .ok [("ab cd", 0, "a"), ("a cd", 3, "b")] ∧
      ("ab cd" : String) ≠ "a cd" :=
  ⟨rfl, rfl, by decide⟩

theorem minifyRun_inv (R : Renamer) (file_text : String) (fuel : Nat)
    (rename_idents other_idents : List RIdent) (st' : LoopState)
    (h : minifyRun R file_text fuel rename_idents other_idents = .ok st') :
    (∀ p ∈ st'.renames, p.1 ≠ "main" ∧ p.2.length < p.1.length) ∧
      ∀ c ∈ st'.calls, c.1 = file_text := by
  unfold minifyRun at h
  rcases hg : SymbolNameGenerator.gen_next_unused_symbol fuel
      (SymbolNameGenerator.new rename_idents other_idents) with _ | ⟨s0, g1⟩
  · rw [hg] at h
    simp at h
  · rw [hg] at h
    have h' : minifyGo R file_text fuel rename_idents
        { gen := g1, next_symbol := s0, builder := [], calls := [],
          renames := [] } = .ok st' := h
    obtain ⟨hren, hcall⟩ := minifyGo_inv R file_text fuel rename_idents _ st' h'
    constructor
    · intro p hp
      rcases hren p hp with hmem | hnew
      · simp at hmem
      · exact hnew
    · intro c hc
      rcases hcall c hc with hmem | hnew
      · simp at hmem
      · exact hnew

/-- C2 amended: during a single renaming pass the edits of all
successful renames are accumulated in one builder and applied to the
source buffer in a single batch after the loop; every rename request
within the pass is resolved against the pass-initial text (the analysis
snapshot), not against a buffer updated by earlier renames. -/
theorem C2_amended_batched_edits (R : Renamer) (file_text : String)
    (fuel : Nat) (rename_idents other_idents : List RIdent) (st' : LoopState)
    (h : minifyRun R file_text fuel rename_idents other_idents = .ok st') :
    (∀ c ∈ st'.calls, c.1 = file_text) ∧
      minify_file_with_idents R file_text fuel rename_idents other_idents =
        .ok (applyIndels file_text st'.builder) := by
  constructor
  · exact (minifyRun_inv R file_text fuel rename_idents other_idents st' h).2
  · unfold minify_file_with_idents
    rw [h]
    rfl

/-- C2 witness: on the concrete two-identifier example the batched
application yields `a b`. -/
theorem C2_amended_batched_edits_witness :
    minify_file_with_idents exampleRenamer "ab cd" 30 exampleIdents [] =
      .ok "a b" := by
  obtain ⟨st, hst, hbuilder⟩ :
      ∃ st, minifyRun exampleRenamer "ab cd" 30 exampleIdents [] = .ok st ∧
        st.builder = [⟨0, 2, "a"⟩, ⟨3, 5, "b"⟩] := ⟨_, rfl, rfl⟩
  have h2 := (C2_amended_batched_edits exampleRenamer "ab cd" 30
    exampleIdents [] st hst).2
  rw [h2, hbuilder]
  rfl

/-- C6: every rename the coordinator actually performs replaces the old
spelling by a strictly shorter one; occurrences whose spelling length is
at most the next candidate's length are skipped. -/
theorem C6_renames_strictly_shrink (R : Renamer) (file_text : String)
    (fuel : Nat) (rename_idents other_idents : List RIdent) (st' : LoopState)
    (h : minifyRun R file_text fuel rename_idents other_idents = .ok st') :
    ∀ p ∈ st'.renames, p.2.length < p.1.length := fun p hp =>
  ((minifyRun_inv R file_text fuel rename_idents other_idents st' h).1 p hp).2

/-- C6 witness: in the concrete run, `ab` is renamed to the strictly
shorter `a`. -/
theorem C6_renames_strictly_shrink_witness :
    ("a" : String).length < ("ab" : String).length := by
  obtain ⟨st, hst, hmem⟩ :
      ∃ st, minifyRun exampleRenamer "ab cd" 30 exampleIdents [] = .ok st ∧
        ("ab", "a") ∈ st.renames := ⟨_, rfl, by decide⟩
  exact C6_renames_strictly_shrink exampleRenamer "ab cd" 30
    exampleIdents [] st hst ("ab", "a") hmem

/-- C10: no occurrence spelled `main` is ever renamed: the loop skips
any identifier whose spelling equals `main` before issuing a rename,
regardless of its syntactic role. -/
theorem C10_main_never_renamed (R : Renamer) (file_text : String)
    (fuel : Nat) (rename_idents other_idents : List RIdent) (st' : LoopState)
    (h : minifyRun R file_text fuel rename_idents other_idents = .ok st') :
    ∀ p ∈ st'.renames, p.1 ≠ "main" := fun p hp =>
  ((minifyRun_inv R file_text fuel rename_idents other_idents st' h).1 p hp).1

/-- C10 witness: the spelling `ab` renamed in the concrete run is not
`main` (and the run's rename trace was reached through the `main`
guard). -/
theorem C10_main_never_renamed_witness : ("ab" : String) ≠ "main" := by
  obtain ⟨st, hst, hmem⟩ :
      ∃ st, minifyRun exampleRenamer "ab cd" 30 exampleIdents [] = .ok st ∧
        ("ab", "a") ∈ st.renames := ⟨_, rfl, by decide⟩
  exact C10_main_never_renamed exampleRenamer "ab cd" 30
    exampleIdents [] st hst ("ab", "a") hmem

/-- C1: the claim states that every string literal's exact character
content appears unchanged in the compactor's output.  The code has no
branch for ordinary (non-raw) string literals, so whitespace inside them
is compacted: the input containing the string literal `"a  b"` (two
interior spaces) is rewritten to contain `"a b"` — the literal's content
is changed.  This evaluates the embedded `remove_extra_space` at that
failing input. -/
theorem C1_string_literal_content_changed :
    remove_extra_space "\"a  b\"\n" = .ok "\"a b\"" ∧
      ("\"a b\"" : String) ≠ "\"a  b\"" := by
  exact ⟨rfl, by decide⟩

/-- C3: the claim states `remove_extra_space` is total with no failure
modes, including on inputs ending in an alphanumeric character.  In the
code the token-tail loop `while alnum(cs[i])` reads `cs[i]` with no
bounds test, so the input `"a"` panics with an index out of bounds; the
embedding returns the `oob` error there. -/
theorem C3_panics_on_input_ending_alnum :
    remove_extra_space "a" = .error .oob := rfl

/-- C7 counterexample: the claim's rule (b) says a space is inserted when
the emitted token ends in a trailing `.` following a `0` (i.e. ends in
`0` then `.`); the code instead tests `result.ends_with(&['.', '0'])`,
i.e. ends in `.` then `0`.  On `x.0 .0` the code inserts a space after
`x.0` (output `x.0 .0`) while the claim's rule would not (output
`x.0.0`). -/
theorem C7_counterexample :
    remove_extra_space "x.0 .0\n" = .ok "x.0 .0" ∧
      remove_extra_space_claim "x.0 .0\n" = .ok "x.0.0" ∧
      ("x.0 .0" : String) ≠ "x.0.0" :=
  ⟨rfl, rfl, by decide⟩

/-- C7 amended: when `remove_extra_space` emits two adjacent tokens, it
inserts exactly one separating space iff (a) the text just emitted ends
in an alphanumeric/underscore character and the next token begins with
one, or (b) the text just emitted ends in the two characters `.` then
`0` (as in a tuple-index access `x.0`) and the next character is `.`;
all other adjacent token pairs are emitted with zero separating bytes.
Formally: the code equals the scanner whose insertion decision is the
single predicate `insertSpace`. -/
theorem C7_amended_insertion_rule (source : String) :
    remove_extra_space source = remove_extra_space_amended source := by
  unfold remove_extra_space remove_extra_space_amended
  rw [removeLoop_eq_amended]

/-- C8: the claim states compaction is idempotent on its own outputs.
It is not: on `"a\n"` the compactor returns `"a"` (dropping the final
newline), and re-applying it to `"a"` panics (out-of-bounds read in the
token-tail loop) instead of returning `"a"` again. -/
theorem C8_not_idempotent_on_outputs :
    remove_extra_space "a\n" = .ok "a" ∧
      remove_extra_space "a" = .error .oob ∧
      (Except.error .oob : Except CErr String) ≠ .ok "a" :=
  ⟨rfl, rfl, by simp⟩

/-! ### Classifier lemmas -/

mutual
theorem collectItem_eq (st : CollectSt) (i : MItem) :
    collectItem st i =
      { ident_var := st.ident_var ++ varOfItem i
        ident_others := st.ident_others ++ othersOfItem i
        impl_for_trait_stack := st.impl_for_trait_stack } := by
  cases i with
  | itemFn name inputs body =>
    rw [collectItem, collectItems_eq]
    simp [varOfItem, othersOfItem]
  | itemStruct name fields =>
    simp [collectItem, varOfItem, othersOfItem]
  | itemImpl isTraitImpl items =>
    rw [collectItem]
    rw [collectImplItems_eq _ items isTraitImpl (by simp)]
    simp [varOfItem, othersOfItem]
  | itemConst name => simp [collectItem, varOfItem, othersOfItem]
  | itemStatic name => simp [collectItem, varOfItem, othersOfItem]
  | itemMod name items =>
    rw [collectItem, collectItems_eq]
    simp [varOfItem, othersOfItem]
  | localLet pat => simp [collectItem, varOfItem, othersOfItem]

theorem collectItems_eq (st : CollectSt) (items : List MItem) :
    collectItems st items =
      { ident_var := st.ident_var ++ varOfItems items
        ident_others := st.ident_others ++ othersOfItems items
        impl_for_trait_stack := st.impl_for_trait_stack } := by
  cases items with
  | nil => simp [collectItems, varOfItems, othersOfItems]
  | cons i is =>
    rw [collectItems, collectItem_eq, collectItems_eq]
    simp [varOfItems, othersOfItems]

theorem collectImplItem_eq (st : CollectSt) (m : MImplItem) (b : Bool)
    (hst : st.impl_for_trait_stack.getLast? = some b) :
    collectImplItem st m =
      { ident_var := st.ident_var ++ varOfImplItem m
        ident_others := st.ident_others ++ othersOfImplItem b m
        impl_for_trait_stack := st.impl_for_trait_stack } := by
  cases m with
  | method name inputs body =>
    rw [collectImplItem, hst]
    cases b with
    | true =>
      rw [collectItems_eq]
      simp [varOfImplItem, othersOfImplItem]
    | false =>
      rw [collectItems_eq]
      simp [varOfImplItem, othersOfImplItem]

theorem collectImplItems_eq (st : CollectSt) (ms : List MImplItem) (b : Bool)
    (hst : st.impl_for_trait_stack.getLast? = some b) :
    collectImplItems st ms =
      { ident_var := st.ident_var ++ varOfImplItems ms
        ident_others := st.ident_others ++ othersOfImplItems b ms
        impl_for_trait_stack := st.impl_for_trait_stack } := by
  cases ms with
  | nil => simp [collectImplItems, varOfImplItems, othersOfImplItems]
  | cons m ms =>
    rw [collectImplItems, collectImplItem_eq st m b hst]
    rw [collectImplItems_eq _ ms b (by simpa using hst)]
    simp [varOfImplItems, othersOfImplItems]
end

mutual
theorem countBoundItem (x : RIdent) (i : MItem) :
    (varOfItem i).count x + (othersOfItem i).count x +
        (traitMethodsOfItem i).count x ≤ (allIdentsOfItem i).count x := by
  cases i with
  | itemFn name inputs body =>
    have hb := countBoundItems x body
    simp only [varOfItem, othersOfItem, traitMethodsOfItem, allIdentsOfItem,
      List.count_append, List.count_cons]
    cases hx : x == name <;> simp [hx] <;> omega
  | itemStruct name fields =>
    simp [varOfItem, othersOfItem, traitMethodsOfItem, allIdentsOfItem]
  | itemImpl isTraitImpl items =>
    have hb := countBoundImplItems x isTraitImpl items
    simpa [varOfItem, othersOfItem, traitMethodsOfItem, allIdentsOfItem] using hb
  | itemConst name =>
    simp [varOfItem, othersOfItem, traitMethodsOfItem, allIdentsOfItem]
  | itemStatic name =>
    simp [varOfItem, othersOfItem, traitMethodsOfItem, allIdentsOfItem]
  | itemMod name items =>
    have hb := countBoundItems x items
    simp only [varOfItem, othersOfItem, traitMethodsOfItem, allIdentsOfItem,
      List.count_append, List.count_cons]
    cases hx : x == name <;> simp [hx] <;> omega
  | localLet pat =>
    simp [varOfItem, othersOfItem, traitMethodsOfItem, allIdentsOfItem]

theorem countBoundItems (x : RIdent) (items : List MItem) :
    (varOfItems items).count x + (othersOfItems items).count x +
        (traitMethodsOfItems items).count x ≤ (allIdentsOfItems items).count x := by
  cases items with
  | nil => simp [varOfItems, othersOfItems, traitMethodsOfItems, allIdentsOfItems]
  | cons i is =>
    have h1 := countBoundItem x i
    have h2 := countBoundItems x is
    simp only [varOfItems, othersOfItems, traitMethodsOfItems, allIdentsOfItems,
      List.count_append]
    omega

theorem countBoundImplItem (x : RIdent) (b : Bool) (m : MImplItem) :
    (varOfImplItem m).count x + (othersOfImplItem b m).count x +
        (traitMethodsOfImplItem b m).count x ≤ (allIdentsOfImplItem m).count x := by
  cases m with
  | method name inputs body =>
    have hb := countBoundItems x body
    cases b <;>
      simp only [varOfImplItem, othersOfImplItem, traitMethodsOfImplItem,
        allIdentsOfImplItem, Bool.false_eq_true, if_true, if_false,
        List.count_append, List.count_cons, List.count_nil, List.nil_append] <;>
      cases hx : x == name <;> simp [hx] <;> omega

theorem countBoundImplItems (x : RIdent) (b : Bool) (ms : List MImplItem) :
    (varOfImplItems ms).count x + (othersOfImplItems b ms).count x +
        (traitMethodsOfImplItems b ms).count x ≤ (allIdentsOfImplItems ms).count x := by
  cases ms with
  | nil =>
    simp [varOfImplItems, othersOfImplItems, traitMethodsOfImplItems,
      allIdentsOfImplItems]
  | cons m ms =>
    have h1 := countBoundImplItem x b m
    have h2 := countBoundImplItems x b ms
    simp only [varOfImplItems, othersOfImplItems, traitMethodsOfImplItems,
      allIdentsOfImplItems, List.count_append]
    omega
end

/-- C9: for every method declared inside an impl block that implements a
trait, the classifier excludes the method's name occurrence from both
output categories: it appears in neither `ident_var` nor `ident_others`
of the visitor's run (the trait flag is tracked by the push/pop stack of
booleans on impl-block entry and exit).  The hypothesis that all
identifier occurrences of the file are distinct reflects that each
occurrence carries its own source position. -/
theorem C9_trait_impl_methods_excluded (items : List MItem) (m : RIdent)
    (hm : m ∈ traitMethodsOfItems items)
    (hnd : (allIdentsOfItems items).Nodup) :
    m ∉ (collectFile items).ident_var ∧ m ∉ (collectFile items).ident_others := by
  have hcoll : collectFile items =
      { ident_var := varOfItems items
        ident_others := othersOfItems items
        impl_for_trait_stack := [] } := by
    unfold collectFile
    rw [collectItems_eq]
    simp
  have hb := countBoundItems m items
  have htrait : 0 < (traitMethodsOfItems items).count m := List.count_pos_iff.mpr hm
  have hone : (allIdentsOfItems items).count m ≤ 1 :=
    List.nodup_iff_count_le_one.mp hnd m
  constructor
  · intro hmem
    rw [hcoll] at hmem
    have : 0 < (varOfItems items).count m := List.count_pos_iff.mpr hmem
    omega
  · intro hmem
    rw [hcoll] at hmem
    have : 0 < (othersOfItems items).count m := List.count_pos_iff.mpr hmem
    omega

/-- C9 witness: in `exampleFile` the method `foo` of the
trait-implementing impl block lands in neither category. -/
theorem C9_trait_impl_methods_excluded_witness :
    (⟨"foo", 10⟩ : RIdent) ∉ (collectFile exampleFile).ident_var ∧
      (⟨"foo", 10⟩ : RIdent) ∉ (collectFile exampleFile).ident_others :=
  C9_trait_impl_methods_excluded exampleFile ⟨"foo", 10⟩ (by decide) (by decide)

end CargoMinify
